import Mathlib

/-!
# onnx_inference_benchmark.cpp: the benchmark run and its statistics

A shallow embedding of `main` of `src/onnx_inference_benchmark.cpp`:

* the input size computation (lines 81-87),
* the warm-up call and the timed loop (lines 115-152),
* the statistics block (lines 154-168) and the values it prints (lines 171-181),
* the two `catch` clauses (lines 185-191) and the final `return 0`.

Conventions of the embedding.

* A latency sample is a rational number of milliseconds; finite `double` arithmetic is taken
  exactly (no rounding, no overflow).  Division of doubles never traps: a zero divisor yields an
  infinity or a NaN, which the type `Dbl` keeps apart from the finite values.
* The inference session is a function from the index of the `session.Run` call (0 is the
  warm-up) to either `none` (the call throws) or `some d` (the call returns and the clock
  difference measured around it is `d` milliseconds).
* Element access outside a vector (`operator[]`, `front()`, `back()` on an empty vector) is
  undefined behaviour in C++; the embedding reports it as such and goes no further.
* Console output other than the final report is not modelled, nor is memory exhaustion.
-/

namespace OnnxBenchmark

/-! ## Doubles with exact finite arithmetic -/

/-- A `double`: a finite value (kept exact), one of the two infinities, or a NaN. -/
inductive Dbl where
  | fin (q : ℚ)
  | pinf
  | ninf
  | nan
deriving DecidableEq

namespace Dbl

/-- The infinity of the given sign. -/
def signedInf (positive : Bool) : Dbl :=
  if positive then pinf else ninf

/-- Unary minus of doubles. -/
def neg : Dbl → Dbl
  | fin q => fin (-q)
  | pinf => ninf
  | ninf => pinf
  | nan => nan

/-- Addition of doubles: exact on finite values, `inf + (-inf)` is a NaN. -/
def add : Dbl → Dbl → Dbl
  | fin a, fin b => fin (a + b)
  | fin _, pinf => pinf
  | fin _, ninf => ninf
  | pinf, fin _ => pinf
  | pinf, pinf => pinf
  | ninf, fin _ => ninf
  | ninf, ninf => ninf
  | _, _ => nan

/-- Subtraction of doubles. -/
def sub (a b : Dbl) : Dbl :=
  add a (neg b)

/-- Multiplication of doubles: exact on finite values, `inf * 0` is a NaN. -/
def mul : Dbl → Dbl → Dbl
  | fin a, fin b => fin (a * b)
  | fin a, pinf => if a = 0 then nan else signedInf (decide (0 < a))
  | fin a, ninf => if a = 0 then nan else signedInf (decide (a < 0))
  | pinf, fin b => if b = 0 then nan else signedInf (decide (0 < b))
  | ninf, fin b => if b = 0 then nan else signedInf (decide (b < 0))
  | pinf, pinf => pinf
  | pinf, ninf => ninf
  | ninf, pinf => ninf
  | ninf, ninf => pinf
  | _, _ => nan

/-- Division of doubles.  It never traps: a finite nonzero value over zero is an infinity,
`0 / 0` and `inf / inf` are NaNs.  A zero is taken as `+0.0`, which is what the divisors of the
program are when they vanish (an element count, and a sum accumulated from `0.0`). -/
def div : Dbl → Dbl → Dbl
  | fin a, fin b =>
    if b = 0 then (if a = 0 then nan else signedInf (decide (0 < a))) else fin (a / b)
  | fin _, pinf => fin 0
  | fin _, ninf => fin 0
  | pinf, fin b => signedInf (decide (0 ≤ b))
  | ninf, fin b => signedInf (decide (b < 0))
  | _, _ => nan

end Dbl

/-! ## Standard library algorithms used by `main` -/

/-- The algorithm `std::accumulate(first, last, init)`: left-to-right summation. -/
def std_accumulate (xs : List ℚ) (init : ℚ) : ℚ :=
  xs.foldl (fun acc x => acc + x) init

/-- The algorithm `std::inner_product(first1, last1, first2, init, op1, op2)`:
`init = op1(init, op2(*first1, *first2))` for each pair, left to right. -/
def std_inner_product (xs ys : List ℚ) (init : Dbl) (op1 : Dbl → Dbl → Dbl)
    (op2 : ℚ → ℚ → Dbl) : Dbl :=
  (xs.zip ys).foldl (fun acc p => op1 acc (op2 p.1 p.2)) init

/-- The algorithm `std::sort(first, last)` with the default `operator<`: the range is rearranged
into ascending order.  On a linear order the ascending rearrangement of a sequence is unique
(see `std_sort_unique`), so the sorting algorithm chosen here does not matter. -/
def std_sort (xs : List ℚ) : List ℚ :=
  xs.insertionSort (fun a b => a ≤ b)

/-! ## Machine integers -/

/-- Largest value of `int` (32 bits). -/
def INT_MAX : Int := 2 ^ 31 - 1

/-- Smallest value of `int` (32 bits). -/
def INT_MIN : Int := -(2 ^ 31)

/-- Conversion of a signed integer to `size_t` (64 bits): reduction modulo `2 ^ 64`. -/
def to_size_t (n : Int) : Nat :=
  (n % 2 ^ 64).toNat

/-- The value of `std::vector<double>::max_size()` on an LP64 platform
(`PTRDIFF_MAX / sizeof(double)`); `reserve` throws `std::length_error` above it. -/
def vector_max_size : Nat := 2 ^ 60 - 1

/-! ## Input size (lines 81-87) -/

/-- Lines 81-87: `size_t input_tensor_size = 1; for (auto dim : input_dims) if (dim > 0)
input_tensor_size *= dim;` with `size_t` arithmetic (modulo `2 ^ 64`). -/
def input_tensor_size (input_dims : List Int) : Nat :=
  input_dims.foldl
    (fun size dim => if dim > 0 then (size * to_size_t dim) % 2 ^ 64 else size) 1

/-! ## The benchmark run (lines 115-193) -/

/-- The inference session as the run sees it: call number `k` of `session.Run` (call 0 is the
warm-up) either throws (`none`) or returns, taking the given number of milliseconds. -/
abbrev Engine := Nat → Option ℚ

/-- The values printed by lines 171-181.  The standard deviation printed is the square root of
`variance`, which is `sq_sum / inference_times.size()`. -/
structure Report where
  iterations : Int
  total_time : ℚ
  mean_time : Dbl
  median_time : ℚ
  min_time : ℚ
  max_time : ℚ
  variance : Dbl
  throughput : Dbl
deriving DecidableEq

/-- How the timed loop ends: a `session.Run` call threw, or the loop condition became false.
`calls` counts the `session.Run` calls made so far, the throwing one included. -/
inductive LoopResult where
  | threw (calls : Nat)
  | finished (calls : Nat) (inference_times : List ℚ)
deriving DecidableEq

/-- How `main` ends once the session and the input tensor exist.
* `failed`: an exception reached a `catch` clause; a message goes to `std::cerr`, nothing of the
  report is printed and `main` returns 1.
* `completed`: the report was printed and `main` returns 0; `inference_times` is the content of
  the vector at that point.
* `undefined`: the statistics block accessed an element of an empty vector. -/
inductive Outcome where
  | failed (calls : Nat)
  | completed (calls : Nat) (inference_times : List ℚ) (report : Report)
  | undefined (calls : Nat)
deriving DecidableEq

/-- Lines 132-152: `for (int i = 0; i < num_iterations; i++)` with one timed `session.Run` and
one `push_back` of the measured duration per iteration. -/
def timed_loop (engine : Engine) (num_iterations : Int) (i : Int) (calls : Nat)
    (inference_times : List ℚ) : LoopResult :=
  if _h : i < num_iterations then
    match engine calls with
    | none => LoopResult.threw (calls + 1)
    | some duration =>
      timed_loop engine num_iterations (i + 1) (calls + 1) (inference_times ++ [duration])
  else
    LoopResult.finished calls inference_times
termination_by (num_iterations - i).toNat
decreasing_by omega

/-- Lines 154-181: the statistics block.  The result is the vector as the block leaves it
together with the printed values; `none` stands for an element access outside the vector. -/
def statistics (num_iterations : Int) (inference_times : List ℚ) :
    Option (List ℚ × Report) :=
  let total_time := std_accumulate inference_times 0
  let mean_time := Dbl.div (Dbl.fin total_time) (Dbl.fin inference_times.length)
  -- line 158: the vector itself is sorted
  let inference_times := std_sort inference_times
  match inference_times[inference_times.length / 2]?, inference_times.head?,
      inference_times.getLast? with
  | some median_time, some min_time, some max_time =>
    let sq_sum := std_inner_product inference_times inference_times (Dbl.fin 0) Dbl.add
      (fun x y => Dbl.mul (Dbl.sub (Dbl.fin x) mean_time) (Dbl.sub (Dbl.fin y) mean_time))
    let variance := Dbl.div sq_sum (Dbl.fin inference_times.length)
    some (inference_times,
      { iterations := num_iterations
        total_time := total_time
        mean_time := mean_time
        median_time := median_time
        min_time := min_time
        max_time := max_time
        variance := variance
        throughput := Dbl.div (Dbl.fin 1000) mean_time })
  | _, _, _ => none

/-- Lines 115-193 of `main`: `reserve`, the warm-up call, the timed loop, the statistics and the
report, inside the `try` block whose `catch` clauses return 1. -/
def main_run (engine : Engine) (num_iterations : Int) : Outcome :=
  -- line 117: `reserve` takes a `size_t` and throws `std::length_error` above `max_size()`
  if to_size_t num_iterations > vector_max_size then Outcome.failed 0
  else
    -- lines 120-127: warm-up, neither timed nor recorded
    match engine 0 with
    | none => Outcome.failed 1
    | some _ =>
      match timed_loop engine num_iterations 0 1 [] with
      | LoopResult.threw calls => Outcome.failed calls
      | LoopResult.finished calls inference_times =>
        match statistics num_iterations inference_times with
        | none => Outcome.undefined calls
        | some (sorted_times, report) => Outcome.completed calls sorted_times report

/-- The value returned by `main`, when it returns. -/
def exit_code : Outcome → Option Nat
  | Outcome.failed _ => some 1
  | Outcome.completed _ _ _ => some 0
  | Outcome.undefined _ => none

/-- The report printed by the run, if one is printed. -/
def printed_report : Outcome → Option Report
  | Outcome.completed _ _ report => some report
  | _ => none

/-- Number of `session.Run` calls made by the run. -/
def engine_calls : Outcome → Nat
  | Outcome.failed calls => calls
  | Outcome.completed calls _ _ => calls
  | Outcome.undefined calls => calls

/-- The call-order samples of a run of `n` timed calls whose call `k` takes `d k` milliseconds:
`d 1, ..., d n` (call 0 is the warm-up). -/
def samples_of (d : Nat → ℚ) (n : Nat) : List ℚ :=
  (List.range n).map (fun j => d (1 + j))

/-! ## Lemmas on the library algorithms -/

theorem std_accumulate_eq (xs : List ℚ) (init : ℚ) :
    std_accumulate xs init = init + xs.sum := by
  unfold std_accumulate
  induction xs generalizing init with
  | nil => simp
  | cons x xs ih => simp [ih, add_assoc]

theorem Dbl.sq_term (x m : ℚ) :
    Dbl.mul (Dbl.sub (Dbl.fin x) (Dbl.fin m)) (Dbl.sub (Dbl.fin x) (Dbl.fin m))
      = Dbl.fin ((x - m) ^ 2) := by
  simp only [Dbl.sub, Dbl.neg, Dbl.add, Dbl.mul]
  congr 1
  ring

theorem std_inner_product_sq (xs : List ℚ) (m a : ℚ) :
    std_inner_product xs xs (Dbl.fin a) Dbl.add
        (fun x y => Dbl.mul (Dbl.sub (Dbl.fin x) (Dbl.fin m)) (Dbl.sub (Dbl.fin y) (Dbl.fin m)))
      = Dbl.fin (a + (xs.map (fun x => (x - m) ^ 2)).sum) := by
  unfold std_inner_product
  induction xs generalizing a with
  | nil => simp
  | cons x xs ih =>
    simp only [List.zip_cons_cons, List.foldl_cons, List.map_cons, List.sum_cons]
    rw [Dbl.sq_term, show Dbl.add (Dbl.fin a) (Dbl.fin ((x - m) ^ 2))
      = Dbl.fin (a + (x - m) ^ 2) from rfl, ih, add_assoc]

theorem std_sort_perm (xs : List ℚ) : (std_sort xs).Perm xs :=
  List.perm_insertionSort _ xs

theorem std_sort_sorted (xs : List ℚ) : (std_sort xs).Sorted (fun a b => a ≤ b) :=
  List.sorted_insertionSort _ xs

theorem std_sort_length (xs : List ℚ) : (std_sort xs).length = xs.length :=
  (std_sort_perm xs).length_eq

/-- Any ascending rearrangement of `xs` is the list `std_sort xs`. -/
theorem std_sort_unique (xs ys : List ℚ) (hp : ys.Perm xs)
    (hs : ys.Sorted (fun a b => a ≤ b)) : ys = std_sort xs :=
  List.eq_of_perm_of_sorted (hp.trans (std_sort_perm xs).symm) hs (std_sort_sorted xs)

theorem sorted_getElem?_le {s : List ℚ} (hs : s.Sorted (fun a b => a ≤ b)) {i j : Nat}
    {a b : ℚ} (hij : i ≤ j) (ha : s[i]? = some a) (hb : s[j]? = some b) : a ≤ b := by
  obtain ⟨hi, rfl⟩ := List.getElem?_eq_some.mp ha
  obtain ⟨hj, rfl⟩ := List.getElem?_eq_some.mp hb
  have h := hs.rel_get_of_le (a := ⟨i, hi⟩) (b := ⟨j, hj⟩) hij
  simpa using h

theorem sum_sub_sq_perm {s xs : List ℚ} (hp : s.Perm xs) (m : ℚ) :
    (s.map (fun x => (x - m) ^ 2)).sum = (xs.map (fun x => (x - m) ^ 2)).sum :=
  (hp.map _).sum_eq

/-- The statistics block on a non-empty vector: no element access is out of range, and every
printed value is determined as follows. -/
theorem statistics_of_ne_nil (N : Int) (xs : List ℚ) (hne : xs ≠ []) :
    ∃ median_time min_time max_time : ℚ,
      (std_sort xs)[xs.length / 2]? = some median_time ∧
      (std_sort xs)[0]? = some min_time ∧
      (std_sort xs)[xs.length - 1]? = some max_time ∧
      statistics N xs = some (std_sort xs,
        { iterations := N
          total_time := xs.sum
          mean_time := Dbl.fin (xs.sum / xs.length)
          median_time := median_time
          min_time := min_time
          max_time := max_time
          variance :=
            Dbl.fin ((xs.map (fun x => (x - xs.sum / xs.length) ^ 2)).sum / xs.length)
          throughput := Dbl.div (Dbl.fin 1000) (Dbl.fin (xs.sum / xs.length)) }) := by
  have hlen : 0 < xs.length := List.length_pos.mpr hne
  have hsl : (std_sort xs).length = xs.length := std_sort_length xs
  have h2 : xs.length / 2 < (std_sort xs).length := by omega
  have h0 : 0 < (std_sort xs).length := by omega
  have h1 : xs.length - 1 < (std_sort xs).length := by omega
  have hq : (xs.length : ℚ) ≠ 0 := Nat.cast_ne_zero.mpr (Nat.pos_iff_ne_zero.mp hlen)
  refine ⟨(std_sort xs)[xs.length / 2], (std_sort xs)[0], (std_sort xs)[xs.length - 1],
    List.getElem?_eq_getElem h2, List.getElem?_eq_getElem h0, List.getElem?_eq_getElem h1, ?_⟩
  unfold statistics
  simp only [List.head?_eq_getElem?, List.getLast?_eq_getElem?, hsl,
    List.getElem?_eq_getElem h2, List.getElem?_eq_getElem h0, List.getElem?_eq_getElem h1,
    std_accumulate_eq, zero_add, Dbl.div, hq, if_false, std_inner_product_sq,
    sum_sub_sq_perm (std_sort_perm xs)]

/-! ## Lemmas on the timed loop and the run -/

/-- The timed loop when each of the `n` calls it still has to make returns. -/
theorem timed_loop_all_return (engine : Engine) (d : Nat → ℚ) (N : Int) :
    ∀ (n : Nat) (i : Int) (calls : Nat) (times : List ℚ),
      N - i = n → (∀ j, j < n → engine (calls + j) = some (d (calls + j))) →
      timed_loop engine N i calls times
        = LoopResult.finished (calls + n)
            (times ++ (List.range n).map (fun j => d (calls + j))) := by
  intro n
  induction n with
  | zero =>
    intro i calls times hn _
    rw [timed_loop]
    have hge : ¬ i < N := by omega
    simp [hge]
  | succ n ih =>
    intro i calls times hn hok
    rw [timed_loop]
    have hlt : i < N := by omega
    have h0 : engine calls = some (d calls) := by simpa using hok 0 (Nat.succ_pos n)
    simp only [hlt, dite_true, h0]
    rw [ih (i + 1) (calls + 1) (times ++ [d calls]) (by push_cast at hn ⊢; omega)
      (fun j hj => by
        have := hok (j + 1) (by omega)
        rw [show calls + 1 + j = calls + (j + 1) by omega]
        exact this)]
    rw [List.range_succ_eq_map]
    simp only [List.map_cons, List.map_map, List.append_assoc, List.singleton_append,
      Nat.add_zero]
    have hfun : (fun j => d (calls + 1 + j)) = (fun j => d (calls + j)) ∘ Nat.succ := by
      funext j
      simp only [Function.comp, Nat.succ_eq_add_one]
      rw [show calls + 1 + j = calls + (j + 1) by omega]
    rw [hfun, show calls + 1 + n = calls + (n + 1) by omega]

/-- The timed loop when call `calls + m` is the first one that throws. -/
theorem timed_loop_first_throw (engine : Engine) (N : Int) :
    ∀ (m : Nat) (i : Int) (calls : Nat) (times : List ℚ),
      (m : Int) < N - i → engine (calls + m) = none →
      (∀ j, j < m → engine (calls + j) ≠ none) →
      timed_loop engine N i calls times = LoopResult.threw (calls + m + 1) := by
  intro m
  induction m with
  | zero =>
    intro i calls times hm hnone _
    rw [timed_loop]
    have hlt : i < N := by omega
    have h0 : engine calls = none := by simpa using hnone
    simp [hlt, h0]
  | succ m ih =>
    intro i calls times hm hnone hok
    rw [timed_loop]
    have hlt : i < N := by omega
    have h0 : engine calls ≠ none := by simpa using hok 0 (Nat.succ_pos m)
    obtain ⟨w, hw⟩ := Option.ne_none_iff_exists.mp h0
    simp only [hlt, dite_true, ← hw]
    rw [ih (i + 1) (calls + 1) (times ++ [w]) (by push_cast at hm ⊢; omega)
      (by rw [show calls + 1 + m = calls + (m + 1) by omega]; exact hnone)
      (fun j hj => by
        rw [show calls + 1 + j = calls + (j + 1) by omega]
        exact hok (j + 1) (by omega))]
    congr 1
    omega

/-- An iteration count that fits a non-negative `int` passes `reserve`. -/
theorem reserve_ok (n : Nat) (h : (n : Int) ≤ INT_MAX) :
    ¬ to_size_t (n : Int) > vector_max_size := by
  unfold INT_MAX at h
  unfold to_size_t vector_max_size
  omega

/-- A negative iteration count makes `reserve` throw. -/
theorem reserve_throws (N : Int) (h1 : INT_MIN ≤ N) (h2 : N < 0) :
    to_size_t N > vector_max_size := by
  unfold INT_MIN at h1
  unfold to_size_t vector_max_size
  omega

/-- The run when call `f` (0 is the warm-up) is the first `session.Run` that throws. -/
theorem main_run_first_throw (engine : Engine) (n : Nat) (hmax : (n : Int) ≤ INT_MAX)
    (f : Nat) (hf : f ≤ n) (hnone : engine f = none)
    (hbefore : ∀ k, k < f → engine k ≠ none) :
    main_run engine n = Outcome.failed (f + 1) := by
  unfold main_run
  rw [if_neg (reserve_ok n hmax)]
  cases f with
  | zero => simp [hnone]
  | succ m =>
    obtain ⟨w, hw⟩ := Option.ne_none_iff_exists.mp (hbefore 0 (Nat.succ_pos m))
    simp only [← hw]
    rw [timed_loop_first_throw engine n m 0 1 [] (by omega)
      (by rw [show 1 + m = m + 1 by omega]; exact hnone)
      (fun j hj => by
        rw [show 1 + j = j + 1 by omega]
        exact hbefore (j + 1) (by omega))]
    simp only [show 1 + m + 1 = m + 1 + 1 by omega]

/-- The run when the warm-up and the `n` timed calls all return. -/
theorem main_run_all_return (engine : Engine) (d : Nat → ℚ) (n : Nat)
    (hmax : (n : Int) ≤ INT_MAX) (hok : ∀ k, k ≤ n → engine k = some (d k)) :
    timed_loop engine n 0 1 [] = LoopResult.finished (n + 1) (samples_of d n) ∧
    main_run engine n =
      match statistics n (samples_of d n) with
      | none => Outcome.undefined (n + 1)
      | some (sorted_times, report) => Outcome.completed (n + 1) sorted_times report := by
  have hloop : timed_loop engine n 0 1 [] = LoopResult.finished (n + 1) (samples_of d n) := by
    rw [timed_loop_all_return engine d n n 0 1 [] (by omega)
      (fun j hj => hok (1 + j) (by omega))]
    simp [samples_of, Nat.add_comm]
  refine ⟨hloop, ?_⟩
  unfold main_run
  rw [if_neg (reserve_ok n hmax), hok 0 (Nat.zero_le n)]
  simp only [hloop]

/-- A negative iteration count ends the run in the `catch` clause before any `session.Run`
call: `reserve` throws `std::length_error`. -/
theorem main_run_negative (engine : Engine) (N : Int) (h1 : INT_MIN ≤ N) (h2 : N < 0) :
    main_run engine N = Outcome.failed 0 := by
  unfold main_run
  rw [if_pos (reserve_throws N h1 h2)]

/-! ## Lemmas on the input size -/

theorem one_le_resolved_prod (dims : List Int) :
    1 ≤ (dims.map (fun d => if d ≤ 0 then 1 else d)).prod := by
  induction dims with
  | nil => simp
  | cons d rest ih =>
    simp only [List.map_cons, List.prod_cons]
    split
    · simpa using ih
    · exact one_le_mul_of_one_le_of_one_le (by omega) ih

theorem input_size_fold (dims : List Int) :
    ∀ acc : Nat, 1 ≤ acc →
      (acc : Int) * (dims.map (fun d => if d ≤ 0 then 1 else d)).prod < 2 ^ 64 →
      ((dims.foldl
          (fun size dim => if dim > 0 then (size * to_size_t dim) % 2 ^ 64 else size) acc
            : Nat) : Int)
        = (acc : Int) * (dims.map (fun d => if d ≤ 0 then 1 else d)).prod := by
  induction dims with
  | nil => intro acc _ _; simp
  | cons d rest ih =>
    intro acc hacc hlt
    have hP := one_le_resolved_prod rest
    simp only [List.map_cons, List.prod_cons, List.foldl_cons] at hlt ⊢
    by_cases hd : d ≤ 0
    · have hd2 : ¬ d > 0 := by omega
      simp only [hd, hd2, if_true, if_false, one_mul] at hlt ⊢
      exact ih acc hacc hlt
    · have hd2 : d > 0 := by omega
      simp only [hd, hd2, if_true, if_false] at hlt ⊢
      have hacc1 : (1 : Int) ≤ (acc : Int) := by exact_mod_cast hacc
      have hd1 : (1 : Int) ≤ d := by omega
      have hadP : (acc : Int) * d ≤ (acc : Int) * d * (rest.map
          (fun d => if d ≤ 0 then 1 else d)).prod :=
        le_mul_of_one_le_right (by positivity) hP
      have hda : d ≤ (acc : Int) * d := le_mul_of_one_le_left (by omega) hacc1
      have hlt2 : (acc : Int) * d * (rest.map (fun d => if d ≤ 0 then 1 else d)).prod
          < 2 ^ 64 := by rw [mul_assoc]; exact hlt
      have hd64 : d < 2 ^ 64 := by omega
      have hts : to_size_t d = d.toNat := by
        unfold to_size_t
        rw [Int.emod_eq_of_lt (by omega) hd64]
      have hcast : ((acc * d.toNat : Nat) : Int) = (acc : Int) * d := by
        rw [Nat.cast_mul, Int.toNat_of_nonneg (by omega)]
      have hnat : acc * d.toNat < 2 ^ 64 := by
        have : ((acc * d.toNat : Nat) : Int) < 2 ^ 64 := by rw [hcast]; omega
        exact_mod_cast this
      rw [hts, Nat.mod_eq_of_lt hnat]
      have hpos : 1 ≤ acc * d.toNat := by
        have : (1 : Int) ≤ ((acc * d.toNat : Nat) : Int) := by rw [hcast]; omega
        exact_mod_cast this
      rw [ih (acc * d.toNat) hpos (by rw [hcast]; exact hlt2), hcast, mul_assoc]

theorem resolved_prod_eq_filter_prod (dims : List Int) :
    (dims.map (fun d => if d ≤ 0 then 1 else d)).prod
      = (dims.filter (fun d => decide (0 < d))).prod := by
  induction dims with
  | nil => simp
  | cons d rest ih =>
    by_cases hd : d ≤ 0
    · have hd2 : ¬ 0 < d := by omega
      simp [hd, hd2, ih]
    · have hd2 : 0 < d := by omega
      simp [hd, hd2, ih]

/-! ## The claims -/

/-- C1, evaluated at `num_iterations = 0`: whenever the warm-up call returns, the run does not
end in a `catch` clause.  It makes the warm-up call and no timed call, the loop leaves the
sample vector empty, and the statistics block is entered: the mean is `0.0 / 0`, a NaN, and the
median is read at index 0 of the empty vector, outside its range, so the behaviour of the
program is undefined from there on and exit code 1 is not what the run yields. -/
theorem zero_iterations_reaches_statistics (w : ℚ) (later : Nat → Option ℚ) :
    timed_loop (fun k => if k = 0 then some w else later k) 0 0 1 []
      = LoopResult.finished 1 [] ∧
    Dbl.div (Dbl.fin (std_accumulate [] 0)) (Dbl.fin (([] : List ℚ).length)) = Dbl.nan ∧
    (std_sort [])[(std_sort []).length / 2]? = none ∧
    statistics 0 [] = none ∧
    main_run (fun k => if k = 0 then some w else later k) 0 = Outcome.undefined 1 ∧
    exit_code (main_run (fun k => if k = 0 then some w else later k) 0) ≠ some 1 := by
  have hloop : timed_loop (fun k => if k = 0 then some w else later k) 0 0 1 []
      = LoopResult.finished 1 [] := by
    rw [timed_loop]
    simp
  have hstat : statistics 0 [] = none := by
    simp [statistics, std_sort]
  have hrun : main_run (fun k => if k = 0 then some w else later k) 0
      = Outcome.undefined 1 := by
    unfold main_run
    rw [if_neg (by unfold to_size_t vector_max_size; omega)]
    simp only [if_true, hloop, hstat]
  refine ⟨hloop, ?_, ?_, hstat, hrun, ?_⟩
  · simp [Dbl.div, std_accumulate]
  · simp [std_sort]
  · rw [hrun]
    simp [exit_code]

/-- C2: for an iteration count `n ≥ 1` that fits an `int` and an engine whose warm-up (call 0)
and `n` timed calls (calls 1..n) all return, taking `d k` milliseconds at call `k`, the timed
loop ends after `n + 1` calls in all with the sample vector `d 1, ..., d n`: its length is
exactly `n`, sample `j` is the duration of timed call `j + 1`, and the warm-up duration `d 0`
is not part of it.  The report is printed, shows `n` as the iteration count, and its mean is
the total divided by that same `n`. -/
theorem sample_count_is_requested_count (engine : Engine) (d : Nat → ℚ) (n : Nat)
    (h1 : 1 ≤ n) (hmax : (n : Int) ≤ INT_MAX) (hok : ∀ k, k ≤ n → engine k = some (d k)) :
    timed_loop engine n 0 1 [] = LoopResult.finished (n + 1) (samples_of d n) ∧
    (samples_of d n).length = n ∧
    (∀ j, j < n → (samples_of d n)[j]? = some (d (j + 1))) ∧
    ∃ report, main_run engine n = Outcome.completed (n + 1) (std_sort (samples_of d n)) report ∧
      report.iterations = (n : Int) ∧
      report.total_time = (samples_of d n).sum ∧
      report.mean_time = Dbl.fin (report.total_time / (n : ℚ)) := by
  obtain ⟨hloop, hrun⟩ := main_run_all_return engine d n hmax hok
  have hlen : (samples_of d n).length = n := by simp [samples_of]
  have hne : samples_of d n ≠ [] := by
    intro h
    rw [h] at hlen
    simp at hlen
    omega
  obtain ⟨med, mn, mx, -, -, -, hstat⟩ := statistics_of_ne_nil n (samples_of d n) hne
  refine ⟨hloop, hlen, ?_, ?_⟩
  · intro j hj
    simp [samples_of, hj, Nat.add_comm]
  · rw [hstat] at hrun
    exact ⟨_, hrun, rfl, rfl, by simp only [hlen]⟩

theorem sample_count_is_requested_count_witness :
    timed_loop (fun k => some (k : ℚ)) (3 : Nat) 0 1 []
      = LoopResult.finished (3 + 1) (samples_of (fun k => (k : ℚ)) 3) ∧
    (samples_of (fun k => (k : ℚ)) 3).length = 3 ∧
    (∀ j, j < 3 → (samples_of (fun k => (k : ℚ)) 3)[j]? = some (((j + 1 : Nat) : ℚ))) ∧
    ∃ report, main_run (fun k => some (k : ℚ)) (3 : Nat)
        = Outcome.completed (3 + 1) (std_sort (samples_of (fun k => (k : ℚ)) 3)) report ∧
      report.iterations = ((3 : Nat) : Int) ∧
      report.total_time = (samples_of (fun k => (k : ℚ)) 3).sum ∧
      report.mean_time = Dbl.fin (report.total_time / ((3 : Nat) : ℚ)) :=
  sample_count_is_requested_count (fun k => some (k : ℚ)) (fun k => (k : ℚ)) 3 (by decide)
    (by unfold INT_MAX; decide) (fun _ _ => rfl)

/-- C3: for every non-empty sample sequence the statistics block prints as median the element
at index `floor(n / 2)` of the samples sorted ascending.  For even `n` that is the upper of the
two middle elements: the element just below it in the sorted order is no larger, and the median
is not the average of the two unless they coincide.  For the samples 1, 2, 3, 4 the median is 3
and for the single sample 5 it is 5. -/
theorem median_is_upper_middle (N : Int) (xs : List ℚ) (hne : xs ≠ []) :
    (∃ report, statistics N xs = some (std_sort xs, report) ∧
      (std_sort xs).Sorted (fun a b => a ≤ b) ∧ (std_sort xs).Perm xs ∧
      (std_sort xs)[xs.length / 2]? = some report.median_time ∧
      (xs.length % 2 = 0 → ∃ lower, (std_sort xs)[xs.length / 2 - 1]? = some lower ∧
        report.median_time = max lower report.median_time ∧
        (lower ≠ report.median_time → report.median_time ≠ (lower + report.median_time) / 2))) ∧
    (∃ report, statistics N [1, 2, 3, 4] = some ([1, 2, 3, 4], report) ∧
      report.median_time = 3) ∧
    (∃ report, statistics N [5] = some ([5], report) ∧ report.median_time = 5) := by
  obtain ⟨med, mn, mx, hmed, -, -, hstat⟩ := statistics_of_ne_nil N xs hne
  have hlen : 0 < xs.length := List.length_pos.mpr hne
  refine ⟨⟨_, hstat, std_sort_sorted xs, std_sort_perm xs, hmed, ?_⟩, ?_, ?_⟩
  · intro heven
    have hlo : xs.length / 2 - 1 < (std_sort xs).length := by
      rw [std_sort_length]
      omega
    refine ⟨(std_sort xs)[xs.length / 2 - 1], List.getElem?_eq_getElem hlo, ?_, ?_⟩
    · have hle : (std_sort xs)[xs.length / 2 - 1] ≤ med :=
        sorted_getElem?_le (std_sort_sorted xs) (Nat.sub_le _ _)
          (List.getElem?_eq_getElem hlo) hmed
      exact (max_eq_right hle).symm
    · intro hneq havg
      apply hneq
      simp only at havg
      linarith
  · obtain ⟨med4, mn4, mx4, hmed4, -, -, h4⟩ :=
      statistics_of_ne_nil N [1, 2, 3, 4] (by simp)
    have hs : std_sort [1, 2, 3, 4] = [1, 2, 3, 4] := by simp [std_sort]
    rw [hs] at h4 hmed4
    simp at hmed4
    exact ⟨_, h4, hmed4.symm⟩
  · obtain ⟨med1, mn1, mx1, hmed1, -, -, h1⟩ := statistics_of_ne_nil N [5] (by simp)
    have hs : std_sort [5] = [5] := by simp [std_sort]
    rw [hs] at h1 hmed1
    simp at hmed1
    exact ⟨_, h1, hmed1.symm⟩

theorem median_is_upper_middle_witness :
    (∃ report, statistics 3 [9, 4, 6] = some (std_sort [9, 4, 6], report) ∧
      (std_sort [9, 4, 6]).Sorted (fun a b => a ≤ b) ∧ (std_sort [9, 4, 6]).Perm [9, 4, 6] ∧
      (std_sort [9, 4, 6])[([9, 4, 6] : List ℚ).length / 2]? = some report.median_time ∧
      (([9, 4, 6] : List ℚ).length % 2 = 0 →
        ∃ lower, (std_sort [9, 4, 6])[([9, 4, 6] : List ℚ).length / 2 - 1]? = some lower ∧
        report.median_time = max lower report.median_time ∧
        (lower ≠ report.median_time → report.median_time ≠ (lower + report.median_time) / 2))) ∧
    (∃ report, statistics 3 [1, 2, 3, 4] = some ([1, 2, 3, 4], report) ∧
      report.median_time = 3) ∧
    (∃ report, statistics 3 [5] = some ([5], report) ∧ report.median_time = 5) :=
  median_is_upper_middle 3 [9, 4, 6] (by simp)

/-- C4: for every non-empty sample sequence, with exact arithmetic, the value whose square root
is printed as standard deviation is the population variance of the call-order samples: the sum
of `(x - mean) ^ 2` over the samples divided by their number (not by one less), where `mean` is
their sum divided by their number.  The sum taken over the sorted vector, as the program does,
is the same number.  For 1, 2, 3, 4 it is 5/4 and for a single sample it is 0. -/
theorem variance_is_population_variance (N : Int) (xs : List ℚ) (hne : xs ≠ []) :
    (∃ report, statistics N xs = some (std_sort xs, report) ∧
      report.mean_time = Dbl.fin (xs.sum / xs.length) ∧
      report.variance
        = Dbl.fin ((xs.map (fun x => (x - xs.sum / xs.length) ^ 2)).sum / xs.length) ∧
      ((std_sort xs).map (fun x => (x - xs.sum / xs.length) ^ 2)).sum
        = (xs.map (fun x => (x - xs.sum / xs.length) ^ 2)).sum) ∧
    (∃ report, statistics N [1, 2, 3, 4] = some ([1, 2, 3, 4], report) ∧
      report.variance = Dbl.fin (5 / 4)) ∧
    (∀ x : ℚ, ∃ report, statistics N [x] = some ([x], report) ∧
      report.variance = Dbl.fin 0) := by
  obtain ⟨med, mn, mx, -, -, -, hstat⟩ := statistics_of_ne_nil N xs hne
  refine ⟨⟨_, hstat, rfl, rfl, sum_sub_sq_perm (std_sort_perm xs) _⟩, ?_, ?_⟩
  · obtain ⟨med4, mn4, mx4, -, -, -, h4⟩ :=
      statistics_of_ne_nil N [1, 2, 3, 4] (by simp)
    have hs : std_sort [1, 2, 3, 4] = [1, 2, 3, 4] := by simp [std_sort]
    rw [hs] at h4
    refine ⟨_, h4, ?_⟩
    simp only [List.sum_cons, List.sum_nil, List.map_cons, List.map_nil, List.length_cons,
      List.length_nil]
    norm_num
  · intro x
    obtain ⟨med1, mn1, mx1, -, -, -, h1⟩ := statistics_of_ne_nil N [x] (by simp)
    have hs : std_sort [x] = [x] := by simp [std_sort]
    rw [hs] at h1
    refine ⟨_, h1, ?_⟩
    simp

theorem variance_is_population_variance_witness :
    (∃ report, statistics 2 [7, 3] = some (std_sort [7, 3], report) ∧
      report.mean_time = Dbl.fin (([7, 3] : List ℚ).sum / ([7, 3] : List ℚ).length) ∧
      report.variance
        = Dbl.fin ((([7, 3] : List ℚ).map
            (fun x => (x - ([7, 3] : List ℚ).sum / ([7, 3] : List ℚ).length) ^ 2)).sum
              / ([7, 3] : List ℚ).length) ∧
      ((std_sort [7, 3]).map
          (fun x => (x - ([7, 3] : List ℚ).sum / ([7, 3] : List ℚ).length) ^ 2)).sum
        = (([7, 3] : List ℚ).map
          (fun x => (x - ([7, 3] : List ℚ).sum / ([7, 3] : List ℚ).length) ^ 2)).sum) ∧
    (∃ report, statistics 2 [1, 2, 3, 4] = some ([1, 2, 3, 4], report) ∧
      report.variance = Dbl.fin (5 / 4)) ∧
    (∀ x : ℚ, ∃ report, statistics 2 [x] = some ([x], report) ∧
      report.variance = Dbl.fin 0) :=
  variance_is_population_variance 2 [7, 3] (by simp)

/-- C5: for every non-empty sample sequence the statistics block prints values with
`min ≤ median ≤ max`, where min is the first and max the last element of the ascending-sorted
samples and median is its element at index `floor(count / 2)`, an index that is in range. -/
theorem min_le_median_le_max (N : Int) (xs : List ℚ) (hne : xs ≠ []) :
    ∃ report, statistics N xs = some (std_sort xs, report) ∧
      (std_sort xs).Sorted (fun a b => a ≤ b) ∧ (std_sort xs).Perm xs ∧
      (std_sort xs).head? = some report.min_time ∧
      (std_sort xs).getLast? = some report.max_time ∧
      xs.length / 2 < (std_sort xs).length ∧
      (std_sort xs)[xs.length / 2]? = some report.median_time ∧
      report.min_time ≤ report.median_time ∧ report.median_time ≤ report.max_time := by
  obtain ⟨med, mn, mx, hmed, hmn, hmx, hstat⟩ := statistics_of_ne_nil N xs hne
  have hlen : 0 < xs.length := List.length_pos.mpr hne
  have hsl := std_sort_length xs
  refine ⟨_, hstat, std_sort_sorted xs, std_sort_perm xs, ?_, ?_, by omega, hmed, ?_, ?_⟩
  · rw [List.head?_eq_getElem?]
    exact hmn
  · rw [List.getLast?_eq_getElem?, hsl]
    exact hmx
  · exact sorted_getElem?_le (std_sort_sorted xs) (Nat.zero_le _) hmn hmed
  · exact sorted_getElem?_le (std_sort_sorted xs) (by omega) hmed hmx

theorem min_le_median_le_max_witness :
    ∃ report, statistics 4 [8, 2, 6, 4] = some (std_sort [8, 2, 6, 4], report) ∧
      (std_sort [8, 2, 6, 4]).Sorted (fun a b => a ≤ b) ∧
      (std_sort [8, 2, 6, 4]).Perm [8, 2, 6, 4] ∧
      (std_sort [8, 2, 6, 4]).head? = some report.min_time ∧
      (std_sort [8, 2, 6, 4]).getLast? = some report.max_time ∧
      ([8, 2, 6, 4] : List ℚ).length / 2 < (std_sort [8, 2, 6, 4]).length ∧
      (std_sort [8, 2, 6, 4])[([8, 2, 6, 4] : List ℚ).length / 2]? = some report.median_time ∧
      report.min_time ≤ report.median_time ∧ report.median_time ≤ report.max_time :=
  min_le_median_le_max 4 [8, 2, 6, 4] (by simp)

/-- C6: for every non-empty sample sequence, with exact arithmetic, the printed mean is the
left-to-right sum of the call-order samples divided by their number, and it lies between the
printed min and max, which are the smallest and the largest sample. -/
theorem min_le_mean_le_max (N : Int) (xs : List ℚ) (hne : xs ≠ []) :
    ∃ report mean, statistics N xs = some (std_sort xs, report) ∧
      report.total_time = xs.foldl (fun acc x => acc + x) 0 ∧
      report.mean_time = Dbl.fin mean ∧
      mean = report.total_time / xs.length ∧
      report.min_time ∈ xs ∧ report.max_time ∈ xs ∧
      (∀ x, x ∈ xs → report.min_time ≤ x ∧ x ≤ report.max_time) ∧
      report.min_time ≤ mean ∧ mean ≤ report.max_time := by
  obtain ⟨med, mn, mx, -, hmn, hmx, hstat⟩ := statistics_of_ne_nil N xs hne
  have hlen : 0 < xs.length := List.length_pos.mpr hne
  have hq : (0 : ℚ) < (xs.length : ℚ) := by exact_mod_cast hlen
  have hsl := std_sort_length xs
  have hbound : ∀ x, x ∈ xs → mn ≤ x ∧ x ≤ mx := by
    intro x hx
    have hxs : x ∈ std_sort xs := (std_sort_perm xs).mem_iff.mpr hx
    obtain ⟨i, hi⟩ := List.mem_iff_getElem?.mp hxs
    obtain ⟨hlt, -⟩ := List.getElem?_eq_some.mp hi
    exact ⟨sorted_getElem?_le (std_sort_sorted xs) (Nat.zero_le _) hmn hi,
      sorted_getElem?_le (std_sort_sorted xs) (by omega) hi hmx⟩
  have hsum := std_accumulate_eq xs 0
  unfold std_accumulate at hsum
  rw [zero_add] at hsum
  refine ⟨_, xs.sum / xs.length, hstat, hsum.symm, rfl, rfl, ?_, ?_, hbound, ?_, ?_⟩
  · exact (std_sort_perm xs).mem_iff.mp (List.mem_iff_getElem?.mpr ⟨_, hmn⟩)
  · exact (std_sort_perm xs).mem_iff.mp (List.mem_iff_getElem?.mpr ⟨_, hmx⟩)
  · rw [le_div_iff₀ hq]
    have h := List.card_nsmul_le_sum xs mn (fun x hx => (hbound x hx).1)
    rw [nsmul_eq_mul] at h
    linarith
  · rw [div_le_iff₀ hq]
    have h := List.sum_le_card_nsmul xs mx (fun x hx => (hbound x hx).2)
    rw [nsmul_eq_mul] at h
    linarith

theorem min_le_mean_le_max_witness :
    ∃ report mean, statistics 3 [4, 1, 10] = some (std_sort [4, 1, 10], report) ∧
      report.total_time = ([4, 1, 10] : List ℚ).foldl (fun acc x => acc + x) 0 ∧
      report.mean_time = Dbl.fin mean ∧
      mean = report.total_time / ([4, 1, 10] : List ℚ).length ∧
      report.min_time ∈ ([4, 1, 10] : List ℚ) ∧ report.max_time ∈ ([4, 1, 10] : List ℚ) ∧
      (∀ x, x ∈ ([4, 1, 10] : List ℚ) → report.min_time ≤ x ∧ x ≤ report.max_time) ∧
      report.min_time ≤ mean ∧ mean ≤ report.max_time :=
  min_le_mean_le_max 3 [4, 1, 10] (by simp)

/-- C7: for every input shape whose product of resolved dimensions (each dimension `≤ 0`
replaced by 1) is below `2 ^ 64`, the computed `input_tensor_size` is that product, which is
the product of the strictly positive dimensions.  It is 1 for the empty shape and for a shape
without a positive dimension, and a shape whose first dimension is dynamic gets the size of the
remaining dimensions: their product when they are all static. -/
theorem input_size_is_resolved_product (input_dims : List Int)
    (hfit : (input_dims.map (fun d => if d ≤ 0 then 1 else d)).prod < 2 ^ 64) :
    (input_tensor_size input_dims : Int)
      = (input_dims.map (fun d => if d ≤ 0 then 1 else d)).prod ∧
    (input_tensor_size input_dims : Int)
      = (input_dims.filter (fun d => decide (0 < d))).prod ∧
    input_tensor_size [] = 1 ∧
    ((∀ d, d ∈ input_dims → d ≤ 0) → input_tensor_size input_dims = 1) ∧
    (∀ d rest, input_dims = d :: rest → d ≤ 0 →
      input_tensor_size input_dims = input_tensor_size rest ∧
      ((∀ x, x ∈ rest → 0 < x) → (input_tensor_size input_dims : Int) = rest.prod)) := by
  have hmain : (input_tensor_size input_dims : Int)
      = (input_dims.map (fun d => if d ≤ 0 then 1 else d)).prod := by
    unfold input_tensor_size
    rw [input_size_fold input_dims 1 (le_refl 1) (by simpa using hfit)]
    simp
  refine ⟨hmain, ?_, ?_, ?_, ?_⟩
  · rw [hmain, resolved_prod_eq_filter_prod]
  · simp [input_tensor_size]
  · intro hall
    have hfil : input_dims.filter (fun d => decide (0 < d)) = [] := by
      rw [List.filter_eq_nil_iff]
      intro d hd
      have := hall d hd
      simp only [decide_eq_true_eq]
      omega
    have h := hmain
    rw [resolved_prod_eq_filter_prod, hfil, List.prod_nil] at h
    exact_mod_cast h
  · intro d rest hdims hd
    subst hdims
    have hd2 : ¬ d > 0 := by omega
    have hstep : input_tensor_size (d :: rest) = input_tensor_size rest := by
      simp [input_tensor_size, hd2]
    refine ⟨hstep, ?_⟩
    intro hpos
    rw [hmain, resolved_prod_eq_filter_prod]
    have hfil : (d :: rest).filter (fun d => decide (0 < d)) = rest := by
      rw [List.filter_cons_of_neg (by simpa using hd)]
      exact List.filter_eq_self.mpr (fun x hx => by simpa using hpos x hx)
    rw [hfil]

theorem input_size_is_resolved_product_witness :
    (input_tensor_size [-1, 3, 224, 224] : Int)
      = (([-1, 3, 224, 224] : List Int).map (fun d => if d ≤ 0 then 1 else d)).prod ∧
    (input_tensor_size [-1, 3, 224, 224] : Int)
      = (([-1, 3, 224, 224] : List Int).filter (fun d => decide (0 < d))).prod ∧
    input_tensor_size [] = 1 ∧
    ((∀ d, d ∈ ([-1, 3, 224, 224] : List Int) → d ≤ 0) →
      input_tensor_size [-1, 3, 224, 224] = 1) ∧
    (∀ d rest, ([-1, 3, 224, 224] : List Int) = d :: rest → d ≤ 0 →
      input_tensor_size [-1, 3, 224, 224] = input_tensor_size rest ∧
      ((∀ x, x ∈ rest → 0 < x) → (input_tensor_size [-1, 3, 224, 224] : Int) = rest.prod)) :=
  input_size_is_resolved_product [-1, 3, 224, 224] (by decide)

/-- C8, refuted as stated: with one timed call measured as exactly 0 ms the run does not fail.
It ends with exit code 0 and a report whose mean is 0 and whose throughput is `+inf`. -/
theorem zero_mean_emits_infinite_throughput :
    main_run (fun _ => some 0) 1
      = Outcome.completed 2 [0]
          { iterations := 1, total_time := 0, mean_time := Dbl.fin 0, median_time := 0,
            min_time := 0, max_time := 0, variance := Dbl.fin 0, throughput := Dbl.pinf } ∧
    exit_code (main_run (fun _ => some 0) 1) = some 0 := by
  have hrun := (main_run_all_return (fun _ => some 0) (fun _ => 0) 1
    (by unfold INT_MAX; decide) (fun _ _ => rfl)).2
  have hstat : statistics ((1 : Nat) : Int) (samples_of (fun _ => 0) 1)
      = some ([0],
          { iterations := 1, total_time := 0, mean_time := Dbl.fin 0, median_time := 0,
            min_time := 0, max_time := 0, variance := Dbl.fin 0, throughput := Dbl.pinf }) := by
    simp [samples_of, statistics, std_sort, std_accumulate, std_inner_product, Dbl.div,
      Dbl.sub, Dbl.neg, Dbl.add, Dbl.mul, Dbl.signedInf]
  rw [hstat] at hrun
  have hrun2 : main_run (fun _ => some 0) 1 = Outcome.completed 2 [0]
      { iterations := 1, total_time := 0, mean_time := Dbl.fin 0, median_time := 0,
        min_time := 0, max_time := 0, variance := Dbl.fin 0, throughput := Dbl.pinf } := by
    simpa using hrun
  refine ⟨hrun2, ?_⟩
  rw [hrun2]
  rfl

/-- C8, amended: the throughput is the double division `1000 / mean` with no guard on the mean.
For every non-empty sample sequence the statistics block yields a report; when the mean is
nonzero the throughput is the exact quotient `1000 / mean` (400 for 1, 2, 3, 4 and 200 for the
single sample 5), and when all samples are exactly zero the mean is 0 and the throughput
emitted is `+inf`. -/
theorem throughput_is_unguarded_quotient (N : Int) (xs : List ℚ) (hne : xs ≠ []) :
    (∃ report, statistics N xs = some (std_sort xs, report) ∧
      report.throughput = Dbl.div (Dbl.fin 1000) report.mean_time ∧
      (∀ mean, report.mean_time = Dbl.fin mean → mean ≠ 0 →
        report.throughput = Dbl.fin (1000 / mean)) ∧
      ((∀ x, x ∈ xs → x = 0) →
        report.mean_time = Dbl.fin 0 ∧ report.throughput = Dbl.pinf)) ∧
    (∃ report, statistics N [1, 2, 3, 4] = some ([1, 2, 3, 4], report) ∧
      report.throughput = Dbl.fin 400) ∧
    (∃ report, statistics N [5] = some ([5], report) ∧ report.throughput = Dbl.fin 200) := by
  obtain ⟨med, mn, mx, -, -, -, hstat⟩ := statistics_of_ne_nil N xs hne
  refine ⟨⟨_, hstat, rfl, ?_, ?_⟩, ?_, ?_⟩
  · intro mean hmean hnz
    simp only at hmean ⊢
    rw [hmean]
    simp [Dbl.div, hnz]
  · intro hzero
    have hsum : xs.sum = 0 := List.sum_eq_zero hzero
    constructor
    · show Dbl.fin (xs.sum / xs.length) = Dbl.fin 0
      rw [hsum, zero_div]
    · show Dbl.div (Dbl.fin 1000) (Dbl.fin (xs.sum / xs.length)) = Dbl.pinf
      rw [hsum, zero_div]
      simp [Dbl.div, Dbl.signedInf]
  · obtain ⟨med4, mn4, mx4, -, -, -, h4⟩ := statistics_of_ne_nil N [1, 2, 3, 4] (by simp)
    have hs : std_sort [1, 2, 3, 4] = [1, 2, 3, 4] := by simp [std_sort]
    rw [hs] at h4
    refine ⟨_, h4, ?_⟩
    simp only [List.sum_cons, List.sum_nil, List.length_cons, List.length_nil, Dbl.div]
    norm_num
  · obtain ⟨med1, mn1, mx1, -, -, -, h1⟩ := statistics_of_ne_nil N [5] (by simp)
    have hs : std_sort [5] = [5] := by simp [std_sort]
    rw [hs] at h1
    refine ⟨_, h1, ?_⟩
    simp only [List.sum_cons, List.sum_nil, List.length_cons, List.length_nil, Dbl.div]
    norm_num

theorem throughput_is_unguarded_quotient_witness :
    (∃ report, statistics 2 [0, 0] = some (std_sort [0, 0], report) ∧
      report.throughput = Dbl.div (Dbl.fin 1000) report.mean_time ∧
      (∀ mean, report.mean_time = Dbl.fin mean → mean ≠ 0 →
        report.throughput = Dbl.fin (1000 / mean)) ∧
      ((∀ x, x ∈ ([0, 0] : List ℚ) → x = 0) →
        report.mean_time = Dbl.fin 0 ∧ report.throughput = Dbl.pinf)) ∧
    (∃ report, statistics 2 [1, 2, 3, 4] = some ([1, 2, 3, 4], report) ∧
      report.throughput = Dbl.fin 400) ∧
    (∃ report, statistics 2 [5] = some ([5], report) ∧ report.throughput = Dbl.fin 200) :=
  throughput_is_unguarded_quotient 2 [0, 0] (by simp)

/-- C9: for every iteration count `n ≥ 1` that fits an `int` and every engine, the run is
all-or-nothing.  If call `f ≤ n` (0 is the warm-up) is the first `session.Run` that throws, the
run makes exactly the calls `0..f` and no later one, prints no report and returns 1; so a run in
which any of the `n + 1` calls would throw prints no report and returns 1.  If none of them
throws, the report is printed, the exit code is 0 and `n + 1` calls were made; and a printed
report implies that none of them threw. -/
theorem run_is_all_or_nothing (engine : Engine) (n : Nat) (h1 : 1 ≤ n)
    (hmax : (n : Int) ≤ INT_MAX) :
    (∀ f, f ≤ n → engine f = none → (∀ k, k < f → engine k ≠ none) →
      engine_calls (main_run engine n) = f + 1 ∧
      printed_report (main_run engine n) = none ∧
      exit_code (main_run engine n) = some 1) ∧
    ((∃ k, k ≤ n ∧ engine k = none) →
      engine_calls (main_run engine n) ≤ n + 1 ∧
      printed_report (main_run engine n) = none ∧
      exit_code (main_run engine n) = some 1) ∧
    ((∀ k, k ≤ n → engine k ≠ none) →
      (∃ report, printed_report (main_run engine n) = some report) ∧
      exit_code (main_run engine n) = some 0 ∧
      engine_calls (main_run engine n) = n + 1) ∧
    (∀ report, printed_report (main_run engine n) = some report →
      (∀ k, k ≤ n → engine k ≠ none) ∧
      exit_code (main_run engine n) = some 0 ∧
      engine_calls (main_run engine n) = n + 1) := by
  have hfirst : ∀ f, f ≤ n → engine f = none → (∀ k, k < f → engine k ≠ none) →
      engine_calls (main_run engine n) = f + 1 ∧
      printed_report (main_run engine n) = none ∧
      exit_code (main_run engine n) = some 1 := by
    intro f hf hnone hbefore
    rw [main_run_first_throw engine n hmax f hf hnone hbefore]
    exact ⟨rfl, rfl, rfl⟩
  have hsome : (∃ k, k ≤ n ∧ engine k = none) →
      engine_calls (main_run engine n) ≤ n + 1 ∧
      printed_report (main_run engine n) = none ∧
      exit_code (main_run engine n) = some 1 := by
    intro hex
    have hex2 : ∃ k, engine k = none := ⟨hex.choose, hex.choose_spec.2⟩
    have hle : Nat.find hex2 ≤ n :=
      (Nat.find_min' hex2 hex.choose_spec.2).trans hex.choose_spec.1
    obtain ⟨hc, hp, he⟩ := hfirst (Nat.find hex2) hle (Nat.find_spec hex2)
      (fun k hk => Nat.find_min hex2 hk)
    exact ⟨by omega, hp, he⟩
  have hall : (∀ k, k ≤ n → engine k ≠ none) →
      (∃ report, printed_report (main_run engine n) = some report) ∧
      exit_code (main_run engine n) = some 0 ∧
      engine_calls (main_run engine n) = n + 1 := by
    intro hok
    have hok2 : ∀ k, k ≤ n → engine k = some ((engine k).getD 0) := by
      intro k hk
      obtain ⟨w, hw⟩ := Option.ne_none_iff_exists.mp (hok k hk)
      rw [← hw]
      rfl
    have hrun := (main_run_all_return engine (fun k => (engine k).getD 0) n hmax hok2).2
    have hne : samples_of (fun k => (engine k).getD 0) n ≠ [] := by
      intro h
      have hlen : (samples_of (fun k => (engine k).getD 0) n).length = n := by
        simp [samples_of]
      rw [h] at hlen
      simp at hlen
      omega
    obtain ⟨med, mn, mx, -, -, -, hstat⟩ := statistics_of_ne_nil n _ hne
    rw [hstat] at hrun
    rw [hrun]
    exact ⟨⟨_, rfl⟩, rfl, rfl⟩
  refine ⟨hfirst, hsome, hall, ?_⟩
  intro report hrep
  have hok : ∀ k, k ≤ n → engine k ≠ none := by
    intro k hk hnone
    have := (hsome ⟨k, hk, hnone⟩).2.1
    rw [this] at hrep
    exact Option.noConfusion hrep
  exact ⟨hok, (hall hok).2⟩

theorem run_is_all_or_nothing_witness :
    (∀ f, f ≤ 3 → (fun k => if k = 2 then none else some (1 : ℚ)) f = none →
      (∀ k, k < f → (fun k => if k = 2 then none else some (1 : ℚ)) k ≠ none) →
      engine_calls (main_run (fun k => if k = 2 then none else some 1) (3 : Nat)) = f + 1 ∧
      printed_report (main_run (fun k => if k = 2 then none else some 1) (3 : Nat)) = none ∧
      exit_code (main_run (fun k => if k = 2 then none else some 1) (3 : Nat)) = some 1) ∧
    ((∃ k, k ≤ 3 ∧ (fun k => if k = 2 then none else some (1 : ℚ)) k = none) →
      engine_calls (main_run (fun k => if k = 2 then none else some 1) (3 : Nat)) ≤ 3 + 1 ∧
      printed_report (main_run (fun k => if k = 2 then none else some 1) (3 : Nat)) = none ∧
      exit_code (main_run (fun k => if k = 2 then none else some 1) (3 : Nat)) = some 1) ∧
    ((∀ k, k ≤ 3 → (fun k => if k = 2 then none else some (1 : ℚ)) k ≠ none) →
      (∃ report,
        printed_report (main_run (fun k => if k = 2 then none else some 1) (3 : Nat))
          = some report) ∧
      exit_code (main_run (fun k => if k = 2 then none else some 1) (3 : Nat)) = some 0 ∧
      engine_calls (main_run (fun k => if k = 2 then none else some 1) (3 : Nat)) = 3 + 1) ∧
    (∀ report,
      printed_report (main_run (fun k => if k = 2 then none else some 1) (3 : Nat))
        = some report →
      (∀ k, k ≤ 3 → (fun k => if k = 2 then none else some (1 : ℚ)) k ≠ none) ∧
      exit_code (main_run (fun k => if k = 2 then none else some 1) (3 : Nat)) = some 0 ∧
      engine_calls (main_run (fun k => if k = 2 then none else some 1) (3 : Nat)) = 3 + 1) :=
  run_is_all_or_nothing (fun k => if k = 2 then none else some 1) 3 (by decide)
    (by unfold INT_MAX; decide)

/-- C10, refuted as stated: with two timed calls measured as 2 ms and then 1 ms the loop leaves
the vector 2, 1 (call order), and after the statistics block the vector holds 1, 2: the call
order is gone. -/
theorem sort_overwrites_call_order :
    timed_loop (fun k => some (3 - (k : ℚ))) 2 0 1 [] = LoopResult.finished 3 [2, 1] ∧
    (∃ report, main_run (fun k => some (3 - (k : ℚ))) 2
      = Outcome.completed 3 [1, 2] report) ∧
    ([1, 2] : List ℚ) ≠ [2, 1] := by
  obtain ⟨hloop, hrun⟩ := main_run_all_return (fun k => some (3 - (k : ℚ)))
    (fun k => 3 - (k : ℚ)) 2 (by unfold INT_MAX; decide) (fun _ _ => rfl)
  have hs : samples_of (fun k => 3 - (k : ℚ)) 2 = [2, 1] := by
    simp [samples_of, List.range_succ]
    norm_num
  rw [hs] at hloop hrun
  obtain ⟨med, mn, mx, -, -, -, hstat⟩ := statistics_of_ne_nil ((2 : Nat) : Int) [2, 1] (by simp)
  have hsort : std_sort [2, 1] = [1, 2] := by simp [std_sort]
  rw [hsort] at hstat
  rw [hstat] at hrun
  refine ⟨by simpa using hloop, ⟨_, by simpa using hrun⟩, by simp⟩

/-- C10, amended: the order statistics are read from the sample vector itself after it has been
sorted in place.  For every non-empty sample sequence, after the statistics block the vector is
the ascending rearrangement of the call-order samples (so it still holds them in call order
exactly when they were measured in ascending order), median, min and max are elements of that
vector, and total and mean were taken from the call-order sequence before the sort. -/
theorem statistics_sorts_in_place (N : Int) (xs : List ℚ) (hne : xs ≠ []) :
    ∃ after report, statistics N xs = some (after, report) ∧
      after = std_sort xs ∧
      after.Sorted (fun a b => a ≤ b) ∧ after.Perm xs ∧
      (after = xs ↔ xs.Sorted (fun a b => a ≤ b)) ∧
      after[xs.length / 2]? = some report.median_time ∧
      after.head? = some report.min_time ∧
      after.getLast? = some report.max_time ∧
      report.total_time = xs.foldl (fun acc x => acc + x) 0 ∧
      report.mean_time = Dbl.fin (report.total_time / xs.length) := by
  obtain ⟨med, mn, mx, hmed, hmn, hmx, hstat⟩ := statistics_of_ne_nil N xs hne
  have hsum := std_accumulate_eq xs 0
  unfold std_accumulate at hsum
  rw [zero_add] at hsum
  refine ⟨_, _, hstat, rfl, std_sort_sorted xs, std_sort_perm xs, ?_, hmed, ?_, ?_,
    hsum.symm, rfl⟩
  · constructor
    · intro h
      rw [← h]
      exact std_sort_sorted xs
    · intro h
      exact (std_sort_unique xs xs (List.Perm.refl xs) h).symm
  · rw [List.head?_eq_getElem?]
    exact hmn
  · rw [List.getLast?_eq_getElem?, std_sort_length]
    exact hmx

theorem statistics_sorts_in_place_witness :
    ∃ after report, statistics 3 [3, 1, 2] = some (after, report) ∧
      after = std_sort [3, 1, 2] ∧
      after.Sorted (fun a b => a ≤ b) ∧ after.Perm [3, 1, 2] ∧
      (after = [3, 1, 2] ↔ ([3, 1, 2] : List ℚ).Sorted (fun a b => a ≤ b)) ∧
      after[([3, 1, 2] : List ℚ).length / 2]? = some report.median_time ∧
      after.head? = some report.min_time ∧
      after.getLast? = some report.max_time ∧
      report.total_time = ([3, 1, 2] : List ℚ).foldl (fun acc x => acc + x) 0 ∧
      report.mean_time = Dbl.fin (report.total_time / ([3, 1, 2] : List ℚ).length) :=
  statistics_sorts_in_place 3 [3, 1, 2] (by simp)

end OnnxBenchmark
